import Mathlib

/-!
Verification of a multi-server call-center queueing simulation.

The program drives a discrete-event simulation: an arrival source spawns
customer processes at sampled interarrival gaps; each customer records the
current queue depth, acquires one unit of a fixed-capacity FIFO resource
pool, records its wait, holds for a sampled service duration, and releases
the unit.  The scheduler (event clock) and the resource pool live in the
simulation library and are modelled here from the design document; the
customer and arrival-source logic, the scenario loop and the derived
metrics are translated directly from the repository source
(`121444498_CS.py`).  Randomness is injected as an explicit stream of
samples, following the design note that the exponential sampler is an
injectable dependency.
-/

namespace CallCenter

/-- Simulation horizon in minutes, from the source parameters (SIM_TIME). -/
def simTime : ℚ := 480

/-- Mean interarrival gap in minutes, from the source parameters (INTER_ARRIVAL_MEAN). -/
def interArrivalMean : ℚ := 5

/-- Scenario settings (num_agents, service_time_mean), from the source SCENARIOS table. -/
def scenarioTable : List (ℕ × ℚ) := [(3, 10), (5, 10), (3, 7)]

/-- Continuations registered with the event clock.  `sourceInit` is the
arrival source's first resumption (process creation), `sourceResume` its
wake-up after an interarrival gap, `customerStart` the start of a customer
process, and `customerDepart` the end of a customer's service hold. -/
inductive Ev where
  | sourceInit : Ev
  | sourceResume : Ev
  | customerStart : ℕ → Ev
  | customerDepart : ℕ → Ev
  deriving DecidableEq

/-- Whether an event is a customer departure (end of a service hold). -/
def Ev.isDepart : Ev → Bool
  | .customerDepart _ => true
  | _ => false

/-- An entry of the event queue: scheduled time, insertion sequence number
(the deterministic FIFO tie-break), and the continuation to resume. -/
structure QEntry where
  time : ℚ
  seq : ℕ
  ev : Ev
  deriving DecidableEq

/-- Modelled from the spec: the event-queue key order, lexicographic on
(scheduled_time, insertion_sequence), so ties in time break FIFO. -/
def entryLE (a b : QEntry) : Prop :=
  a.time < b.time ∨ (a.time = b.time ∧ a.seq ≤ b.seq)

instance : DecidableRel entryLE := fun a b =>
  inferInstanceAs (Decidable (a.time < b.time ∨ (a.time = b.time ∧ a.seq ≤ b.seq)))

instance : IsTotal QEntry entryLE := by
  constructor
  intro a b
  rcases lt_trichotomy a.time b.time with h | h | h
  · exact Or.inl (Or.inl h)
  · rcases Nat.le_total a.seq b.seq with hs | hs
    · exact Or.inl (Or.inr ⟨h, hs⟩)
    · exact Or.inr (Or.inr ⟨h.symm, hs⟩)
  · exact Or.inr (Or.inl h)

instance : IsTrans QEntry entryLE := by
  constructor
  intro a b c hab hbc
  rcases hab with h1 | ⟨h1, s1⟩
  · rcases hbc with h2 | ⟨h2, _⟩
    · exact Or.inl (h1.trans h2)
    · exact Or.inl (h2 ▸ h1)
  · rcases hbc with h2 | ⟨h2, s2⟩
    · exact Or.inl (h1 ▸ h2)
    · exact Or.inr ⟨h1.trans h2, s1.trans s2⟩

/-- Errors the run can abort with.  `negativeDelay` is the scheduler's
rejection of a negative delay (a scheduling-invariant violation per the
design's error taxonomy); `badConfig` is the fatal pre-run configuration
error. -/
inductive SimError where
  | negativeDelay : SimError
  | badConfig : SimError
  deriving DecidableEq

/-- The complete state of one scenario run: the clock (`now`, `queue`,
`nextSeq`), the resource pool (`busy`, `waiting`, each waiter paired with
its arrival time), the sample-stream cursor `sIdx`, the arrival counter
`nextId`, the three observation buffers, and ghost instrumentation
(`arrived`, `departed`, `dispatched` times, and the `grants` log of
(id, arrival_time, grant_time) triples). -/
structure SimState where
  now : ℚ
  queue : List QEntry
  nextSeq : ℕ
  busy : ℕ
  waiting : List (ℕ × ℚ)
  sIdx : ℕ
  nextId : ℕ
  waitTimes : List ℚ
  queueLengths : List ℕ
  serviceTimes : List ℚ
  arrived : ℕ
  departed : ℕ
  dispatched : List ℚ
  grants : List (ℕ × ℚ × ℚ)
  deriving DecidableEq

/-- Engine configuration for one run: the pool capacity and the injected
stream of sampled durations, consumed in program order. -/
structure Cfg where
  capacity : ℕ
  samples : ℕ → ℚ

/-- Modelled from the spec: `schedule_after(delay, continuation)` enqueues a
resumption at `now + delay`, keyed by (time, fresh insertion sequence);
negative delays are a programming error and must fail, not silently clamp. -/
def scheduleAfter (delay : ℚ) (e : Ev) (st : SimState) : Except SimError SimState :=
  if delay < 0 then .error .negativeDelay
  else .ok { st with
    queue := st.queue.orderedInsert entryLE ⟨st.now + delay, st.nextSeq, e⟩,
    nextSeq := st.nextSeq + 1 }

/-- The grant transition of a customer (source lines 29-37): on resumption
after `yield request`, record `wait = now - arrival_time`, sample a service
duration from the stream, record it, occupy one pool unit, and schedule the
departure after the sampled hold.  The grant is also logged in the ghost
`grants` list. -/
def grantInline (cfg : Cfg) (cid : ℕ) (arr : ℚ) (st : SimState) : Except SimError SimState :=
  let s := cfg.samples st.sIdx
  scheduleAfter s (.customerDepart cid)
    { st with
      waitTimes := st.waitTimes ++ [st.now - arr],
      grants := st.grants ++ [(cid, arr, st.now)],
      serviceTimes := st.serviceTimes ++ [s],
      sIdx := st.sIdx + 1,
      busy := st.busy + 1 }

/-- Dispatch one continuation.  The arrival-source cases follow `setup`
(source lines 39-45): the first resumption samples the first gap; each
later resumption spawns the next customer process at the current instant
and then samples and schedules the next gap.  The customer cases follow
`customer` (source lines 22-37): on start, record the queue depth before
joining, then acquire the pool (immediate grant when a unit is free,
otherwise join the FIFO waiting list); on departure, release the unit and,
when the waiting list is non-empty, grant its head immediately, resuming
that customer's continuation (pool semantics modelled from the spec). -/
def handleEv (cfg : Cfg) (e : Ev) (st : SimState) : Except SimError SimState :=
  match e with
  | .sourceInit =>
      scheduleAfter (cfg.samples st.sIdx) .sourceResume { st with sIdx := st.sIdx + 1 }
  | .sourceResume => do
      let st1 ← scheduleAfter 0 (.customerStart (st.nextId + 1))
        { st with nextId := st.nextId + 1 }
      scheduleAfter (cfg.samples st1.sIdx) .sourceResume { st1 with sIdx := st1.sIdx + 1 }
  | .customerStart cid =>
      let st1 := { st with
        arrived := st.arrived + 1,
        queueLengths := st.queueLengths ++ [st.waiting.length] }
      if st1.busy < cfg.capacity then grantInline cfg cid st1.now st1
      else .ok { st1 with waiting := st1.waiting ++ [(cid, st1.now)] }
  | .customerDepart _ =>
      let st1 := { st with departed := st.departed + 1, busy := st.busy - 1 }
      match st1.waiting with
      | [] => .ok st1
      | (w, arr) :: rest => grantInline cfg w arr { st1 with waiting := rest }

/-- Modelled from the spec: one iteration of `run_until(horizon)`.  Pop the
earliest-scheduled pending continuation; if its time is at most the
horizon, advance `now` to it and resume it; terminate when the queue is
empty or the next event's time exceeds the horizon.  Returns `none` on
termination. -/
def step (cfg : Cfg) (horizon : ℚ) (st : SimState) : Except SimError (Option SimState) :=
  match st.queue with
  | [] => .ok none
  | x :: rest =>
      if x.time ≤ horizon then
        (handleEv cfg x.ev
          { st with now := x.time, queue := rest,
                    dispatched := st.dispatched ++ [x.time] }).map some
      else .ok none

/-- The fresh state of a scenario run: clock at 0, the arrival source's
creation event scheduled at time 0, an idle pool, and empty buffers. -/
def initState : SimState :=
  { now := 0, queue := [⟨0, 0, .sourceInit⟩], nextSeq := 1, busy := 0, waiting := [],
    sIdx := 0, nextId := 0, waitTimes := [], queueLengths := [], serviceTimes := [],
    arrived := 0, departed := 0, dispatched := [], grants := [] }

/-- Modelled from the spec: the scheduler loop of `run_until`, iterated with
explicit fuel (the arrival source runs indefinitely, so termination is
imposed by the horizon; fuel only bounds the iteration count in Lean). -/
def runSim (cfg : Cfg) (horizon : ℚ) : ℕ → SimState → Except SimError SimState
  | 0, st => .ok st
  | fuel + 1, st =>
      match step cfg horizon st with
      | .ok none => .ok st
      | .ok (some st1) => runSim cfg horizon fuel st1
      | .error e => .error e

/-- States reachable by the scheduler loop of a run. -/
inductive Reachable (cfg : Cfg) (horizon : ℚ) : SimState → Prop where
  | init : Reachable cfg horizon initState
  | next {st st1 : SimState} : Reachable cfg horizon st →
      step cfg horizon st = .ok (some st1) → Reachable cfg horizon st1

/-- The per-scenario output record (source lines 61-70): derived metrics
plus the observation sequences. -/
structure MetricsRec where
  averageWait : ℚ
  maxQueueLength : ℕ
  utilizationPct : ℚ
  waitTimesOut : List ℚ
  queueLengthSamples : List ℕ
  serviceTimesOut : List ℚ
  deriving DecidableEq

/-- Arithmetic mean of a list of rationals (statistics.mean). -/
def pyMean (l : List ℚ) : ℚ := l.sum / l.length

/-- Maximum of a list of naturals, 0 on the empty list (Python max on the
non-empty lists it is applied to). -/
def pyMax (l : List ℕ) : ℕ := l.foldr max 0

/-- Derived metrics, translated from source lines 61-70:
`avg_wait = statistics.mean(wait_times) if wait_times else 0`,
`max_queue = max(queue_lengths) if queue_lengths else 0`,
`agent_utilization = (sum(service_times) / (num_agents * SIM_TIME)) * 100
if service_times else 0`. -/
def resultsFor (numAgents : ℕ) (horizon : ℚ) (st : SimState) : MetricsRec :=
  { averageWait := if st.waitTimes = [] then 0 else pyMean st.waitTimes,
    maxQueueLength := if st.queueLengths = [] then 0 else pyMax st.queueLengths,
    utilizationPct :=
      if st.serviceTimes = [] then 0
      else (st.serviceTimes.sum / ((numAgents : ℚ) * horizon)) * 100,
    waitTimesOut := st.waitTimes,
    queueLengthSamples := st.queueLengths,
    serviceTimesOut := st.serviceTimes }

/-- A scenario configuration: (server_count, mean_service_time). -/
structure ScenCfg where
  serverCount : ℕ
  serviceMean : ℚ
  deriving DecidableEq

/-- Modelled from the spec: the pre-run configuration check.  Non-positive
server_count, non-positive mean_service_time or non-positive interarrival
mean is a fatal ConfigurationError that must prevent the run from starting
(the checks live in the simulation library and sampler construction, which
are not part of the repository source). -/
def cfgOk (sc : ScenCfg) (interMean : ℚ) : Bool :=
  decide (0 < sc.serverCount) && decide (0 < sc.serviceMean) && decide (0 < interMean)

/-- One scenario run (source lines 52-70): validate the configuration,
run a fresh engine state to the horizon, and derive the metrics record. -/
def scenarioRun (sc : ScenCfg) (interMean : ℚ) (samples : ℕ → ℚ) (horizon : ℚ)
    (fuel : ℕ) : Except SimError MetricsRec :=
  if cfgOk sc interMean then
    (runSim ⟨sc.serverCount, samples⟩ horizon fuel initState).map
      (resultsFor sc.serverCount horizon)
  else .error .badConfig

/-- Modelled from the spec: the resource pool in isolation — capacity,
busy count, and the FIFO waiting list of request identifiers. -/
structure Pool where
  capacity : ℕ
  busy : ℕ
  waiting : List ℕ
  deriving DecidableEq

/-- Modelled from the spec: `acquire(request)` — immediate grant while a
unit is free, otherwise append to the FIFO waiting list.  The Bool records
whether the grant was immediate. -/
def Pool.acquire (p : Pool) (r : ℕ) : Pool × Bool :=
  if p.busy < p.capacity then ({ p with busy := p.busy + 1 }, true)
  else ({ p with waiting := p.waiting ++ [r] }, false)

/-- Modelled from the spec: `release` — decrement the busy count; when the
waiting list is non-empty, pop its head and grant it immediately. -/
def Pool.release (p : Pool) : Pool × Option ℕ :=
  let p1 : Pool := { p with busy := p.busy - 1 }
  match p1.waiting with
  | [] => (p1, none)
  | w :: rest => ({ p1 with waiting := rest, busy := p1.busy + 1 }, some w)

/-- Apply a sequence of acquire calls in arrival order. -/
def acquireAll (p : Pool) (rs : List ℕ) : Pool :=
  rs.foldl (fun q r => (q.acquire r).1) p

/-- Apply `k` release calls, collecting the grants they issue in order. -/
def releaseRun : Pool → ℕ → Pool × List ℕ
  | p, 0 => (p, [])
  | p, k + 1 =>
      let pr := p.release
      let rec2 := releaseRun pr.1 k
      (rec2.1, pr.2.toList ++ rec2.2)

/-- The run invariant: the event queue is sorted by its key with no entry
scheduled in the past; waiters arrived no later than now; the wait-time
buffer is exactly the per-grant differences of the grant log, whose grant
times are at least the arrival times; the service buffer is aligned with
the wait buffer and non-negative; the queue-depth buffer has one sample per
arrival; every arrival is granted, waiting, or both counted by busy and
departed; and the pending departure events are counted by busy. -/
structure Inv (st : SimState) : Prop where
  sortedQ : List.Sorted entryLE st.queue
  timesGE : ∀ x ∈ st.queue, st.now ≤ x.time
  waitingLE : ∀ p ∈ st.waiting, p.2 ≤ st.now
  waitsEq : st.waitTimes = st.grants.map (fun g => g.2.2 - g.2.1)
  grantsLE : ∀ g ∈ st.grants, g.2.1 ≤ g.2.2
  lenServ : st.serviceTimes.length = st.waitTimes.length
  servNN : ∀ s ∈ st.serviceTimes, 0 ≤ s
  lenQL : st.queueLengths.length = st.arrived
  grantsWaiting : st.grants.length + st.waiting.length = st.arrived
  conservation : st.busy + st.waiting.length + st.departed = st.arrived
  departCount : (st.queue.filter (fun x => x.ev.isDepart)).length = st.busy

theorem scheduleAfter_ok {d : ℚ} {e : Ev} {st st1 : SimState}
    (h : scheduleAfter d e st = .ok st1) :
    0 ≤ d ∧ st1 = { st with
      queue := st.queue.orderedInsert entryLE ⟨st.now + d, st.nextSeq, e⟩,
      nextSeq := st.nextSeq + 1 } := by
  by_cases hd : d < 0
  · simp [scheduleAfter, hd] at h
  · simp only [scheduleAfter, hd, if_neg, ite_false, Except.ok.injEq] at h
    exact ⟨not_lt.mp hd, h.symm⟩

theorem scheduleAfter_neg {d : ℚ} (hd : d < 0) (e : Ev) (st : SimState) :
    scheduleAfter d e st = .error .negativeDelay := by
  simp [scheduleAfter, hd]

theorem grantInline_ok {cfg : Cfg} {cid : ℕ} {arr : ℚ} {st st1 : SimState}
    (h : grantInline cfg cid arr st = .ok st1) :
    0 ≤ cfg.samples st.sIdx ∧ st1 = { st with
      queue := st.queue.orderedInsert entryLE
        ⟨st.now + cfg.samples st.sIdx, st.nextSeq, .customerDepart cid⟩,
      nextSeq := st.nextSeq + 1,
      busy := st.busy + 1,
      sIdx := st.sIdx + 1,
      waitTimes := st.waitTimes ++ [st.now - arr],
      serviceTimes := st.serviceTimes ++ [cfg.samples st.sIdx],
      grants := st.grants ++ [(cid, arr, st.now)] } := by
  simp only [grantInline] at h
  obtain ⟨hd, h1⟩ := scheduleAfter_ok h
  exact ⟨hd, by rw [h1]⟩

theorem grantInline_neg {cfg : Cfg} {cid : ℕ} {arr : ℚ} {st : SimState}
    (hs : cfg.samples st.sIdx < 0) :
    grantInline cfg cid arr st = .error .negativeDelay := by
  simp [grantInline, scheduleAfter, hs]

theorem entryLE_time {a b : QEntry} (h : entryLE a b) : a.time ≤ b.time := by
  rcases h with h | ⟨h, _⟩
  · exact le_of_lt h
  · exact le_of_eq h

theorem mem_insert_time {l : List QEntry} {a : QEntry} {t : ℚ}
    (h2 : ∀ y ∈ l, t ≤ y.time) (ha : t ≤ a.time) :
    ∀ y ∈ l.orderedInsert entryLE a, t ≤ y.time := by
  intro y hy
  rcases (List.mem_orderedInsert entryLE).mp hy with rfl | hy
  · exact ha
  · exact h2 y hy

theorem filter_dep_insert_true (cid : ℕ) (t : ℚ) (sq : ℕ) (l : List QEntry) :
    ((l.orderedInsert entryLE ⟨t, sq, .customerDepart cid⟩).filter
        (fun x => x.ev.isDepart)).length
      = (l.filter (fun x => x.ev.isDepart)).length + 1 := by
  have hp := ((List.perm_orderedInsert entryLE
      (⟨t, sq, .customerDepart cid⟩ : QEntry) l).filter (fun x => x.ev.isDepart)).length_eq
  rw [hp, List.filter_cons]
  simp [Ev.isDepart]

theorem filter_dep_insert_false (e : Ev) (he : e.isDepart = false) (t : ℚ) (sq : ℕ)
    (l : List QEntry) :
    ((l.orderedInsert entryLE ⟨t, sq, e⟩).filter (fun x => x.ev.isDepart)).length
      = (l.filter (fun x => x.ev.isDepart)).length := by
  have hp := ((List.perm_orderedInsert entryLE
      (⟨t, sq, e⟩ : QEntry) l).filter (fun x => x.ev.isDepart)).length_eq
  rw [hp, List.filter_cons]
  simp [he]

theorem sorted_insert {l : List QEntry} (a : QEntry) (h : List.Sorted entryLE l) :
    List.Sorted entryLE (l.orderedInsert entryLE a) :=
  List.Sorted.orderedInsert a l h

theorem step_ok_elim {cfg : Cfg} {H : ℚ} {st st1 : SimState}
    (h : step cfg H st = .ok (some st1)) :
    ∃ x rest, st.queue = x :: rest ∧ x.time ≤ H ∧
      handleEv cfg x.ev { st with
        now := x.time, queue := rest,
        dispatched := st.dispatched ++ [x.time] } = .ok st1 := by
  rcases hq : st.queue with _ | ⟨x, rest⟩
  · simp [step, hq] at h
  · simp only [step, hq] at h
    by_cases ht : x.time ≤ H
    · rw [if_pos ht] at h
      cases he : handleEv cfg x.ev { st with
          now := x.time, queue := rest,
          dispatched := st.dispatched ++ [x.time] } with
      | error e => rw [he] at h; simp [Except.map] at h
      | ok stm =>
          rw [he] at h
          simp only [Except.map, Except.ok.injEq, Option.some.injEq] at h
          exact ⟨x, rest, rfl, ht, h ▸ he⟩
    · rw [if_neg ht] at h; simp at h

theorem handleEv_preserves {cfg : Cfg} {e : Ev} {st st1 : SimState}
    (hSorted : List.Sorted entryLE st.queue)
    (hTimes : ∀ x ∈ st.queue, st.now ≤ x.time)
    (hWaiting : ∀ p ∈ st.waiting, p.2 ≤ st.now)
    (hWaits : st.waitTimes = st.grants.map (fun g => g.2.2 - g.2.1))
    (hGrants : ∀ g ∈ st.grants, g.2.1 ≤ g.2.2)
    (hLenServ : st.serviceTimes.length = st.waitTimes.length)
    (hServNN : ∀ s ∈ st.serviceTimes, 0 ≤ s)
    (hLenQL : st.queueLengths.length = st.arrived)
    (hGW : st.grants.length + st.waiting.length = st.arrived)
    (hCons : st.busy + st.waiting.length + st.departed = st.arrived)
    (hDC : (st.queue.filter (fun x => x.ev.isDepart)).length
            + (if e.isDepart then 1 else 0) = st.busy)
    (h : handleEv cfg e st = .ok st1) : Inv st1 := by
  cases e with
  | sourceInit =>
      replace hDC : (st.queue.filter (fun x => x.ev.isDepart)).length = st.busy := by
        simpa [Ev.isDepart] using hDC
      simp only [handleEv] at h
      obtain ⟨hd, h1⟩ := scheduleAfter_ok h
      subst h1
      refine ⟨sorted_insert _ hSorted,
        mem_insert_time hTimes (le_add_of_nonneg_right hd),
        hWaiting, hWaits, hGrants, hLenServ, hServNN, hLenQL, hGW, hCons, ?_⟩
      dsimp only
      rw [filter_dep_insert_false Ev.sourceResume rfl]
      exact hDC
  | sourceResume =>
      replace hDC : (st.queue.filter (fun x => x.ev.isDepart)).length = st.busy := by
        simpa [Ev.isDepart] using hDC
      simp only [handleEv, bind, Except.bind] at h
      cases h1 : scheduleAfter 0 (.customerStart (st.nextId + 1))
          { st with nextId := st.nextId + 1 } with
      | error e2 => rw [h1] at h; simp at h
      | ok stA =>
          rw [h1] at h
          obtain ⟨_, hA⟩ := scheduleAfter_ok h1
          subst hA
          obtain ⟨hd2, hB⟩ := scheduleAfter_ok h
          subst hB
          refine ⟨sorted_insert _ (sorted_insert _ hSorted),
            mem_insert_time (mem_insert_time hTimes (by simp))
              (le_add_of_nonneg_right hd2),
            hWaiting, hWaits, hGrants, hLenServ, hServNN, hLenQL, hGW, hCons, ?_⟩
          dsimp only
          rw [filter_dep_insert_false Ev.sourceResume rfl,
            filter_dep_insert_false (Ev.customerStart (st.nextId + 1)) rfl]
          exact hDC
  | customerStart cid =>
      replace hDC : (st.queue.filter (fun x => x.ev.isDepart)).length = st.busy := by
        simpa [Ev.isDepart] using hDC
      simp only [handleEv] at h
      by_cases hb : st.busy < cfg.capacity
      · rw [if_pos hb] at h
        obtain ⟨hd, h1⟩ := grantInline_ok h
        subst h1
        refine ⟨sorted_insert _ hSorted,
          mem_insert_time hTimes (le_add_of_nonneg_right hd),
          hWaiting, ?_, ?_, ?_, ?_, ?_, ?_, ?_, ?_⟩
        · dsimp only
          simp [hWaits]
        · dsimp only
          intro g hg
          rcases List.mem_append.mp hg with hg | hg
          · exact hGrants g hg
          · simp only [List.mem_singleton] at hg
            subst hg
            exact le_refl _
        · dsimp only
          simp [hLenServ]
        · dsimp only
          intro z hz
          rcases List.mem_append.mp hz with hz | hz
          · exact hServNN z hz
          · simp only [List.mem_singleton] at hz
            subst hz
            exact hd
        · dsimp only
          simp only [List.length_append, List.length_singleton]
          omega
        · dsimp only
          simp only [List.length_append, List.length_singleton]
          omega
        · dsimp only
          omega
        · dsimp only
          rw [filter_dep_insert_true]
          omega
      · rw [if_neg hb] at h
        simp only [Except.ok.injEq] at h
        subst h
        refine ⟨hSorted, hTimes, ?_, hWaits, hGrants, hLenServ, hServNN, ?_, ?_, ?_, ?_⟩
        · dsimp only
          intro p hp
          rcases List.mem_append.mp hp with hp | hp
          · exact hWaiting p hp
          · simp only [List.mem_singleton] at hp
            subst hp
            exact le_refl _
        · dsimp only
          simp only [List.length_append, List.length_singleton]
          omega
        · dsimp only
          simp only [List.length_append, List.length_singleton]
          omega
        · dsimp only
          simp only [List.length_append, List.length_singleton]
          omega
        · dsimp only
          exact hDC
  | customerDepart cid =>
      replace hDC : (st.queue.filter (fun x => x.ev.isDepart)).length + 1 = st.busy := by
        simpa [Ev.isDepart] using hDC
      simp only [handleEv] at h
      rcases hw : st.waiting with _ | ⟨⟨w, arr⟩, rest⟩ <;> simp only [hw] at h
      · simp only [Except.ok.injEq] at h
        subst h
        rw [hw] at hGW hCons
        refine ⟨hSorted, hTimes, ?_, hWaits, hGrants, hLenServ, hServNN, hLenQL, ?_, ?_, ?_⟩
        · dsimp only
          intro p hp
          simp at hp
        · dsimp only
          simpa using hGW
        · dsimp only
          simp only [List.length_nil, Nat.add_zero] at hCons ⊢
          omega
        · dsimp only
          omega
      · obtain ⟨hd, h1⟩ := grantInline_ok h
        subst h1
        have harr : arr ≤ st.now :=
          hWaiting (w, arr) (by rw [hw]; exact List.mem_cons_self _ _)
        rw [hw] at hGW hCons
        simp only [List.length_cons] at hGW hCons
        refine ⟨sorted_insert _ hSorted,
          mem_insert_time hTimes (le_add_of_nonneg_right hd), ?_, ?_, ?_, ?_, ?_,
          hLenQL, ?_, ?_, ?_⟩
        · dsimp only
          intro p hp
          exact hWaiting p (by rw [hw]; exact List.mem_cons_of_mem _ hp)
        · dsimp only
          simp [hWaits]
        · dsimp only
          intro g hg
          rcases List.mem_append.mp hg with hg | hg
          · exact hGrants g hg
          · simp only [List.mem_singleton] at hg
            subst hg
            exact harr
        · dsimp only
          simp [hLenServ]
        · dsimp only
          intro z hz
          rcases List.mem_append.mp hz with hz | hz
          · exact hServNN z hz
          · simp only [List.mem_singleton] at hz
            subst hz
            exact hd
        · dsimp only
          simp only [List.length_append, List.length_singleton]
          omega
        · dsimp only
          omega
        · dsimp only
          rw [filter_dep_insert_true]
          omega

theorem initState_inv : Inv initState := by
  refine ⟨?_, ?_, ?_, ?_, ?_, ?_, ?_, ?_, ?_, ?_, ?_⟩ <;>
    simp [initState, List.sorted_singleton, Ev.isDepart]

theorem step_preserves {cfg : Cfg} {H : ℚ} {st st1 : SimState}
    (hInv : Inv st) (h : step cfg H st = .ok (some st1)) : Inv st1 := by
  obtain ⟨x, rest, hq, ht, he⟩ := step_ok_elim h
  have hxt : st.now ≤ x.time :=
    hInv.timesGE x (by rw [hq]; exact List.mem_cons_self _ _)
  have hs := hInv.sortedQ
  rw [hq] at hs
  have hsort := (List.sorted_cons.mp hs).2
  have hge : ∀ y ∈ rest, x.time ≤ y.time := fun y hy =>
    entryLE_time ((List.sorted_cons.mp hs).1 y hy)
  have hDCmid : (rest.filter (fun z => z.ev.isDepart)).length
      + (if x.ev.isDepart then 1 else 0) = st.busy := by
    have hdc := hInv.departCount
    rw [hq, List.filter_cons] at hdc
    cases hdep : x.ev.isDepart
    · rw [hdep] at hdc
      simpa using hdc
    · rw [hdep] at hdc
      simpa using hdc
  exact @handleEv_preserves cfg x.ev
    { st with now := x.time, queue := rest, dispatched := st.dispatched ++ [x.time] } st1
    hsort hge (fun p hp => (hInv.waitingLE p hp).trans hxt) hInv.waitsEq hInv.grantsLE
    hInv.lenServ hInv.servNN hInv.lenQL hInv.grantsWaiting hInv.conservation hDCmid he

theorem reachable_inv {cfg : Cfg} {H : ℚ} {st : SimState}
    (h : Reachable cfg H st) : Inv st := by
  induction h with
  | init => exact initState_inv
  | next hr hstep ih => exact step_preserves ih hstep

theorem handleEv_now {cfg : Cfg} {e : Ev} {st st1 : SimState}
    (h : handleEv cfg e st = .ok st1) :
    st1.now = st.now ∧ st1.dispatched = st.dispatched := by
  cases e with
  | sourceInit =>
      simp only [handleEv] at h
      obtain ⟨_, h1⟩ := scheduleAfter_ok h
      subst h1
      exact ⟨rfl, rfl⟩
  | sourceResume =>
      simp only [handleEv, bind, Except.bind] at h
      cases h1 : scheduleAfter 0 (.customerStart (st.nextId + 1))
          { st with nextId := st.nextId + 1 } with
      | error e2 => rw [h1] at h; simp at h
      | ok stA =>
          rw [h1] at h
          obtain ⟨_, hA⟩ := scheduleAfter_ok h1
          subst hA
          obtain ⟨_, hB⟩ := scheduleAfter_ok h
          subst hB
          exact ⟨rfl, rfl⟩
  | customerStart cid =>
      simp only [handleEv] at h
      by_cases hb : st.busy < cfg.capacity
      · rw [if_pos hb] at h
        obtain ⟨_, h1⟩ := grantInline_ok h
        subst h1
        exact ⟨rfl, rfl⟩
      · rw [if_neg hb] at h
        simp only [Except.ok.injEq] at h
        subst h
        exact ⟨rfl, rfl⟩
  | customerDepart cid =>
      simp only [handleEv] at h
      rcases hw : st.waiting with _ | ⟨⟨w, arr⟩, rest⟩ <;> simp only [hw] at h
      · simp only [Except.ok.injEq] at h
        subst h
        exact ⟨rfl, rfl⟩
      · obtain ⟨_, h1⟩ := grantInline_ok h
        subst h1
        exact ⟨rfl, rfl⟩

theorem step_ok_now {cfg : Cfg} {H : ℚ} {st st1 : SimState}
    (h : step cfg H st = .ok (some st1)) :
    st1.now ≤ H ∧ ∃ t, t ≤ H ∧ st1.dispatched = st.dispatched ++ [t] := by
  obtain ⟨x, rest, hq, ht, he⟩ := step_ok_elim h
  obtain ⟨hn, hdisp⟩ := handleEv_now he
  constructor
  · rw [hn]
    exact ht
  · exact ⟨x.time, ht, by rw [hdisp]⟩

theorem acquireAll_saturated (C : ℕ) (w rs : List ℕ) :
    acquireAll ⟨C, C, w⟩ rs = ⟨C, C, w ++ rs⟩ := by
  induction rs generalizing w with
  | nil => simp [acquireAll]
  | cons r rs ih =>
      have ha : (Pool.mk C C w).acquire r = (⟨C, C, w ++ [r]⟩, false) := by
        simp [Pool.acquire]
      show acquireAll ((Pool.mk C C w).acquire r).1 rs = _
      rw [ha]
      dsimp only
      rw [ih]
      simp

theorem acquireAll_below (C : ℕ) (rs : List ℕ) : ∀ b, b ≤ C →
    acquireAll ⟨C, b, []⟩ rs = ⟨C, min (b + rs.length) C, rs.drop (C - b)⟩ := by
  induction rs with
  | nil =>
      intro b hb
      simp [acquireAll, Nat.min_eq_left hb]
  | cons r rs ih =>
      intro b hb
      by_cases hbC : b < C
      · have ha : (Pool.mk C b []).acquire r = (⟨C, b + 1, []⟩, true) := by
          simp [Pool.acquire, hbC]
        show acquireAll ((Pool.mk C b []).acquire r).1 rs = _
        rw [ha]
        dsimp only
        rw [ih (b + 1) hbC]
        have hCb : C - b = (C - (b + 1)) + 1 := by omega
        rw [hCb]
        simp only [List.drop_succ_cons, List.length_cons, Pool.mk.injEq]
        refine ⟨trivial, ?_, trivial⟩
        omega
      · have hbeq : b = C := le_antisymm hb (not_lt.mp hbC)
        subst hbeq
        rw [acquireAll_saturated]
        simp only [List.nil_append, Pool.mk.injEq, Nat.sub_self, List.drop_zero]
        refine ⟨trivial, ?_, trivial⟩
        omega

theorem releaseRun_grants (C : ℕ) : ∀ (k b : ℕ) (w : List ℕ),
    (releaseRun ⟨C, b, w⟩ k).2 = w.take k := by
  intro k
  induction k with
  | zero =>
      intro b w
      simp [releaseRun]
  | succ k ih =>
      intro b w
      rcases w with _ | ⟨hd, t⟩
      · simp only [releaseRun, Pool.release]
        simp [ih]
      · simp only [releaseRun, Pool.release]
        simp [ih]

/-- C1: grants to waiting requests are issued strictly in arrival order: after
any sequence of acquire calls on a fresh pool of capacity C with no releases
in between, the requests past the first C sit in the FIFO waiting list, and
any k subsequent releases grant exactly the (C+1)-th, (C+2)-th, ...
requests in their arrival order, with no reordering and no preemption. -/
theorem fifo_grant_order (C : ℕ) (rs : List ℕ) (k : ℕ) :
    (releaseRun (acquireAll ⟨C, 0, []⟩ rs) k).2 = (rs.drop C).take k := by
  rw [acquireAll_below C rs 0 (Nat.zero_le C), releaseRun_grants]
  simp

/-- C2: for every request completing its ARRIVED-to-GRANTED transition, the
recorded wait equals grant-time minus arrival-time, all recorded waits are
non-negative, and exactly one wait is appended per granted request (the
wait buffer is the image of the grant log, entry for entry). -/
theorem wait_time_correct {cfg : Cfg} {H : ℚ} {st : SimState}
    (h : Reachable cfg H st) :
    st.waitTimes = st.grants.map (fun g => g.2.2 - g.2.1) ∧
    (∀ w ∈ st.waitTimes, 0 ≤ w) ∧
    st.waitTimes.length = st.grants.length := by
  have hInv := reachable_inv h
  refine ⟨hInv.waitsEq, ?_, by rw [hInv.waitsEq]; simp⟩
  intro w hw
  rw [hInv.waitsEq] at hw
  obtain ⟨g, hg, rfl⟩ := List.mem_map.mp hw
  exact sub_nonneg.mpr (hInv.grantsLE g hg)

def exStream : ℕ → ℚ := fun i => ([2, 5, 3, 1, 4, 2, 6, 1] : List ℚ).getD i 5

def exCfg : Cfg := ⟨1, exStream⟩

theorem wait_time_correct_witness :
    initState.waitTimes = initState.grants.map (fun g => g.2.2 - g.2.1) ∧
    (∀ w ∈ initState.waitTimes, 0 ≤ w) ∧
    initState.waitTimes.length = initState.grants.length :=
  @wait_time_correct exCfg 480 initState Reachable.init

theorem pyMax_le (l : List ℕ) : ∀ q ∈ l, q ≤ pyMax l := by
  induction l with
  | nil => simp
  | cons a t ih =>
      intro q hq
      rcases List.mem_cons.mp hq with rfl | hq
      · exact le_max_left _ _
      · exact le_trans (ih q hq) (le_max_right _ _)

theorem pyMax_mem (l : List ℕ) (h : l ≠ []) : pyMax l ∈ l := by
  induction l with
  | nil => simp at h
  | cons a t ih =>
      by_cases ht : t = []
      · subst ht
        simp [pyMax]
      · rcases le_total a (pyMax t) with hle | hle
        · rw [show pyMax (a :: t) = max a (pyMax t) from rfl, max_eq_right hle]
          exact List.mem_cons_of_mem _ (ih ht)
        · rw [show pyMax (a :: t) = max a (pyMax t) from rfl, max_eq_left hle]
          exact List.mem_cons_self _ _

/-- C3: the derived metrics satisfy the spec formulas: average_wait is the
mean (sum over length) of wait_times or 0 when empty; utilization_pct is
100 times the service-time total over server_count times the horizon, or 0
when no service occurred; max_queue_length bounds every queue-depth sample,
is itself one of the samples when any exist, and is 0 otherwise. -/
theorem metrics_formulas (n : ℕ) (H : ℚ) (st : SimState) :
    ((resultsFor n H st).averageWait
        = if st.waitTimes = [] then 0
          else st.waitTimes.sum / st.waitTimes.length) ∧
    ((resultsFor n H st).utilizationPct
        = if st.serviceTimes = [] then 0
          else 100 * st.serviceTimes.sum / ((n : ℚ) * H)) ∧
    (∀ q ∈ st.queueLengths, q ≤ (resultsFor n H st).maxQueueLength) ∧
    (st.queueLengths ≠ [] → (resultsFor n H st).maxQueueLength ∈ st.queueLengths) ∧
    (st.queueLengths = [] → (resultsFor n H st).maxQueueLength = 0) := by
  refine ⟨?_, ?_, ?_, ?_, ?_⟩
  · simp [resultsFor, pyMean]
  · simp only [resultsFor]
    by_cases hs : st.serviceTimes = []
    · simp [hs]
    · simp only [hs, ite_false]
      rw [div_mul_eq_mul_div, mul_comm]
  · intro q hq
    have hql : st.queueLengths ≠ [] := by
      intro hc
      rw [hc] at hq
      simp at hq
    simp only [resultsFor, hql, ite_false]
    exact pyMax_le _ q hq
  · intro hql
    simp only [resultsFor, hql, ite_false]
    exact pyMax_mem _ hql
  · intro hql
    simp [resultsFor, hql]

def exObs : SimState :=
  { initState with waitTimes := [3], queueLengths := [2, 5], serviceTimes := [4] }

theorem metrics_formulas_witness :
    (2 ≤ (resultsFor 3 480 exObs).maxQueueLength) ∧
    ((resultsFor 3 480 exObs).maxQueueLength ∈ exObs.queueLengths) ∧
    ((resultsFor 3 480 exObs).averageWait
      = if exObs.waitTimes = [] then 0 else exObs.waitTimes.sum / exObs.waitTimes.length) :=
  ⟨(metrics_formulas 3 480 exObs).2.2.1 2 (by simp [exObs, initState]),
   (metrics_formulas 3 480 exObs).2.2.2.1 (by simp [exObs, initState]),
   (metrics_formulas 3 480 exObs).1⟩

/-- C4: for every run with a non-negative horizon, no event whose scheduled
time is strictly greater than the horizon is ever dispatched (every entry of
the dispatched-times log is at most the horizon), and the clock never
exceeds the horizon. -/
theorem horizon_respect {cfg : Cfg} {H : ℚ} {st : SimState}
    (hH : 0 ≤ H) (h : Reachable cfg H st) :
    st.now ≤ H ∧ ∀ t ∈ st.dispatched, t ≤ H := by
  induction h with
  | init => exact ⟨hH, by simp [initState]⟩
  | next hr hstep ih =>
      obtain ⟨hn, t, htH, hdisp⟩ := step_ok_now hstep
      refine ⟨hn, ?_⟩
      intro u hu
      rw [hdisp] at hu
      rcases List.mem_append.mp hu with hu | hu
      · exact ih.2 u hu
      · simp only [List.mem_singleton] at hu
        subst hu
        exact htH

theorem horizon_respect_witness :
    initState.now ≤ 480 ∧ ∀ t ∈ initState.dispatched, t ≤ 480 :=
  @horizon_respect exCfg 480 initState (by norm_num) Reachable.init

/-- C5: run_until dispatches every pending continuation scheduled no later
than the horizon: when the earliest pending event's time is at most the
horizon — including exactly at the horizon — one scheduler iteration pops
it, advances now to its time, and resumes its continuation, and the run
does not terminate at that iteration. -/
theorem horizon_boundary_dispatch {cfg : Cfg} {H : ℚ} {st : SimState} {x : QEntry}
    {rest : List QEntry} (hq : st.queue = x :: rest) (ht : x.time ≤ H) :
    step cfg H st = (handleEv cfg x.ev { st with
        now := x.time, queue := rest,
        dispatched := st.dispatched ++ [x.time] }).map some ∧
    step cfg H st ≠ .ok none := by
  have h1 : step cfg H st = (handleEv cfg x.ev { st with
      now := x.time, queue := rest,
      dispatched := st.dispatched ++ [x.time] }).map some := by
    simp only [step, hq, if_pos ht]
  refine ⟨h1, ?_⟩
  rw [h1]
  cases handleEv cfg x.ev { st with
      now := x.time, queue := rest,
      dispatched := st.dispatched ++ [x.time] } <;> simp [Except.map]

theorem horizon_boundary_dispatch_witness :
    step exCfg 480 initState = (handleEv exCfg Ev.sourceInit { initState with
        now := 0, queue := [],
        dispatched := initState.dispatched ++ [0] }).map some ∧
    step exCfg 480 initState ≠ .ok none :=
  @horizon_boundary_dispatch exCfg 480 initState ⟨0, 0, .sourceInit⟩ [] rfl (by norm_num)

/-- C6: deterministic replay — two runs of the same scenario with the same
interarrival mean, the same injected sample stream (the fixed random seed),
the same horizon and the same fuel produce identical results, in particular
identical wait-time, queue-length-sample and service-time sequences. -/
theorem deterministic_replay (sc : ScenCfg) (interMean : ℚ) (samples : ℕ → ℚ)
    (H : ℚ) (fuel : ℕ) (r1 r2 : Except SimError MetricsRec)
    (h1 : scenarioRun sc interMean samples H fuel = r1)
    (h2 : scenarioRun sc interMean samples H fuel = r2) : r1 = r2 := by
  rw [← h1, ← h2]

def exScen : ScenCfg := ⟨3, 10⟩

theorem deterministic_replay_witness :
    scenarioRun exScen 5 exStream 480 50 = scenarioRun exScen 5 exStream 480 50 :=
  deterministic_replay exScen 5 exStream 480 50 _ _ rfl rfl

/-- C7: conservation — at every scheduler-step boundary of every run, the
busy count plus the waiting-list length equals the number of requests in
the system, that is, the number that have arrived minus the number that
have departed. -/
theorem conservation_in_system {cfg : Cfg} {H : ℚ} {st : SimState}
    (h : Reachable cfg H st) :
    st.busy + st.waiting.length = st.arrived - st.departed ∧
    st.departed ≤ st.arrived := by
  have hc := (reachable_inv h).conservation
  omega

theorem conservation_in_system_witness :
    initState.busy + initState.waiting.length = initState.arrived - initState.departed ∧
    initState.departed ≤ initState.arrived :=
  @conservation_in_system exCfg 480 initState Reachable.init

/-- C8: a configuration with non-positive server count, non-positive mean
service time or non-positive interarrival mean makes the scenario run fail
with the fatal configuration error before any simulation occurs: the run
returns the configuration error and produces no observation record. -/
theorem config_error_blocks_run (sc : ScenCfg) (interMean : ℚ) (samples : ℕ → ℚ)
    (H : ℚ) (fuel : ℕ)
    (hbad : sc.serverCount = 0 ∨ sc.serviceMean ≤ 0 ∨ interMean ≤ 0) :
    scenarioRun sc interMean samples H fuel = .error .badConfig := by
  have hok : cfgOk sc interMean = false := by
    rcases hbad with hb | hb | hb
    · simp [cfgOk, hb]
    · have hx : ¬ (0 < sc.serviceMean) := not_lt.mpr hb
      simp [cfgOk, hx]
    · have hx : ¬ (0 < interMean) := not_lt.mpr hb
      simp [cfgOk, hx]
  simp [scenarioRun, hok]

theorem config_error_blocks_run_witness :
    scenarioRun ⟨0, 10⟩ 5 exStream 480 10 = .error .badConfig :=
  config_error_blocks_run ⟨0, 10⟩ 5 exStream 480 10 (Or.inl rfl)

def negCfg : Cfg := ⟨1, fun _ => -1⟩

/-- C9: sampled durations are guarded against negativity before being held:
a negative sampled service duration makes the grant transition fail with
the scheduler's fatal negative-delay error (the run aborts rather than
holding for a negative time), and consequently every service duration
recorded by a run that is still alive is non-negative. -/
theorem negative_sample_aborts :
    (∀ (cfg : Cfg) (cid : ℕ) (arr : ℚ) (st : SimState), cfg.samples st.sIdx < 0 →
        grantInline cfg cid arr st = .error .negativeDelay) ∧
    (∀ (cfg : Cfg) (H : ℚ) (st : SimState), Reachable cfg H st →
        ∀ s ∈ st.serviceTimes, 0 ≤ s) := by
  constructor
  · intro cfg cid arr st hs
    exact grantInline_neg hs
  · intro cfg H st h
    exact (reachable_inv h).servNN

theorem negative_sample_aborts_witness :
    grantInline negCfg 1 0 initState = .error .negativeDelay ∧
    ∀ s ∈ initState.serviceTimes, 0 ≤ s :=
  ⟨negative_sample_aborts.1 negCfg 1 0 initState (by norm_num [negCfg]),
   negative_sample_aborts.2 exCfg 480 initState Reachable.init⟩

/-- C10: buffer alignment — at every scheduler-step boundary of every run,
the service-time buffer has exactly as many entries as the wait-time
buffer (each grant appends one wait followed by one service record with no
suspension in between), and the queue-depth buffer, which gets one sample
per arrival, has at least as many entries as the wait-time buffer. -/
theorem buffer_length_relations {cfg : Cfg} {H : ℚ} {st : SimState}
    (h : Reachable cfg H st) :
    st.serviceTimes.length = st.waitTimes.length ∧
    st.waitTimes.length ≤ st.queueLengths.length := by
  have hInv := reachable_inv h
  refine ⟨hInv.lenServ, ?_⟩
  have h1 : st.waitTimes.length = st.grants.length := by
    rw [hInv.waitsEq]
    simp
  have h2 := hInv.grantsWaiting
  have h3 := hInv.lenQL
  omega

theorem buffer_length_relations_witness :
    initState.serviceTimes.length = initState.waitTimes.length ∧
    initState.waitTimes.length ≤ initState.queueLengths.length :=
  @buffer_length_relations exCfg 480 initState Reachable.init

end CallCenter
